import Mathlib

/-!
Shallow embedding of `pdf_to.py` (class `PDFKnowledgeGraphV2`).

The program converts a PDF's visually formatted text into a rooted tree:
an element classifier (`extract_structured_text_from_pdf`) turns raw page
geometry into a flat list of text elements, and a hierarchy builder
(`build_knowledge_graph`) turns that list into a directed graph by a
stack-based parent-selection algorithm.

Python floats (font sizes, coordinates) are modelled as rationals `ℚ`;
the graph managed through `networkx.DiGraph` is modelled as an
insertion-ordered association list of nodes plus a duplicate-free list of
directed edges, matching `DiGraph.add_node` (which overwrites the supplied
attributes of an existing node) and `DiGraph.add_edge` (which is a no-op
on an existing edge).
-/

namespace PdfTo

/-- One classified line of text, the dict appended by
`extract_structured_text_from_pdf` (src/pdf_to.py lines 93-100). -/
structure TextElement where
  text : String
  font : String
  font_size : ℚ
  is_bold : Bool
  is_underlined : Bool
  page : Nat
deriving Repr, DecidableEq

/-- The per-node attribute dict stored in the graph
(`level`, `content`, `font_size`, `is_underlined`). -/
structure NodeAttrs where
  level : Nat
  content : String
  font_size : ℚ
  is_underlined : Bool
deriving Repr, DecidableEq

/-- The `networkx.DiGraph`: nodes as an insertion-ordered association
list from id to attributes, edges as a duplicate-free list of
(from, to) pairs. -/
structure Graph where
  nodes : List (String × NodeAttrs)
  edges : List (String × String)
deriving Repr, DecidableEq

/-- `self.graph.nodes[id]`: attribute lookup. -/
def lookupNode (g : Graph) (id : String) : Option NodeAttrs :=
  (g.nodes.find? (fun p => p.1 = id)).map Prod.snd

/-- `id in self.graph.nodes`. -/
def hasNode (g : Graph) (id : String) : Bool :=
  g.nodes.any (fun p => p.1 = id)

/-- `self.graph.add_node(id, level=.., content=.., font_size=.., is_underlined=..)`:
networkx overwrites every supplied attribute of an existing node, here all
four of them, so an existing entry is replaced in place; a new id is
appended. -/
def addNode (g : Graph) (id : String) (a : NodeAttrs) : Graph :=
  if hasNode g id then
    { g with nodes := g.nodes.map (fun p => if p.1 = id then (p.1, a) else p) }
  else
    { g with nodes := g.nodes ++ [(id, a)] }

/-- `self.graph.add_edge(u, v)`: a no-op when the edge already exists. -/
def addEdge (g : Graph) (u v : String) : Graph :=
  if (u, v) ∈ g.edges then g else { g with edges := g.edges ++ [(u, v)] }

/-- `self.graph.nodes[id]["content"] += " " + text`, guarded by
`if id in self.graph.nodes` (src/pdf_to.py lines 224-225, 229-230). -/
def appendContent (g : Graph) (id : String) (text : String) : Graph :=
  if hasNode g id then
    { g with nodes := g.nodes.map (fun p =>
        if p.1 = id then (p.1, { p.2 with content := p.2.content ++ " " ++ text }) else p) }
  else g

/-- Number of incoming edges of a node. -/
def inDegree (g : Graph) (id : String) : Nat :=
  (g.edges.filter (fun e => e.2 = id)).length

/-! ### Element classifier geometry (underline detection) -/

/-- A `fitz.Rect`; `height = y1 - y0`. -/
structure Rect where
  x0 : ℚ
  y0 : ℚ
  x1 : ℚ
  y1 : ℚ
deriving Repr, DecidableEq

def Rect.height (r : Rect) : ℚ := r.y1 - r.y0

/-- One entry of `d["items"]`: a kind tag (such as "re") and a rectangle. -/
structure DrawItem where
  kind : String
  rect : Rect
deriving Repr, DecidableEq

/-- One drawing returned by `page.get_drawings()`: its `type` and items. -/
structure Drawing where
  dtype : String
  items : List DrawItem
deriving Repr, DecidableEq

/-- src/pdf_to.py lines 41-50: collect, from filled drawings
(`type == "f"`), every `"re"` item whose rectangle is shorter than 5
units. -/
def underline_rects (drawings : List Drawing) : List Rect :=
  ((drawings.filter (fun d => d.dtype = "f")).map (fun d =>
    (d.items.filter (fun it => it.kind = "re" ∧ it.rect.height < 5)).map
      (fun it => it.rect))).flatten

/-- src/pdf_to.py lines 73-80: union bounding box of the line's span
bboxes; `None` when the line has no spans. -/
def line_bbox (bs : List Rect) : Option Rect :=
  match bs with
  | [] => none
  | b :: rest => some
      { x0 := rest.foldl (fun m r => min m r.x0) b.x0
        y0 := rest.foldl (fun m r => min m r.y0) b.y0
        x1 := rest.foldl (fun m r => max m r.x1) b.x1
        y1 := rest.foldl (fun m r => max m r.y1) b.y1 }

/-- src/pdf_to.py lines 84-89: scan the candidate rectangles in order and
mark the line underlined at the first one whose horizontal span overlaps
the line bbox positively and whose top edge is within 5 units of the line
bbox's bottom edge. -/
def check_underlined (bb : Rect) (rects : List Rect) : Bool :=
  match rects.find? (fun rect =>
      min bb.x1 rect.x1 - max bb.x0 rect.x0 > 0 ∧ |rect.y0 - bb.y1| < 5) with
  | some _ => true
  | none => false

/-- The full per-line underline classification: `False` when the line has
no spans (`line_bbox` is `None`), otherwise the scan above over the
page's collected underline rectangles. -/
def line_is_underlined (drawings : List Drawing) (spanBboxes : List Rect) : Bool :=
  match line_bbox spanBboxes with
  | none => false
  | some bb => check_underlined bb (underline_rects drawings)

/-! ### Hierarchy builder -/

/-- Python's `\s` (ASCII part): blank characters accepted after the
period of a standalone numbering item. -/
def isPySpace (c : Char) : Bool :=
  c = ' ' ∨ c = '\t' ∨ c = '\n' ∨ c = '\r' ∨ c = '\x0b' ∨ c = '\x0c'

/-- Python's `text.endswith(':')`: the last character is a colon. -/
def endsWithColon (s : String) : Bool :=
  decide (s.data.getLast? = some ':')

/-- Python's `text.startswith(":")`: the first character is a colon. -/
def startsWithColon (s : String) : Bool :=
  decide (s.data.head? = some ':')

/-- Python's `content.strip()`: drop whitespace from both ends. -/
def pyStrip (s : String) : String :=
  String.mk (((s.data.dropWhile isPySpace).reverse.dropWhile isPySpace).reverse)

/-- `re.match(r'^\d+\.\s*$', text)` (src/pdf_to.py line 168): one or more
digits, a period, then only whitespace. -/
def isStandaloneNumber (s : String) : Bool :=
  let cs := s.data
  let digits := cs.takeWhile Char.isDigit
  let rest := cs.dropWhile Char.isDigit
  !digits.isEmpty &&
    match rest with
    | '.' :: ws => ws.all isPySpace
    | _ => false

/-- src/pdf_to.py lines 130-138: font size of the first non-bold element,
defaulting to 8.0 when every element is bold. -/
def regular_font_size (elements : List TextElement) : ℚ :=
  match elements.find? (fun e => !e.is_bold) with
  | some e => e.font_size
  | none => 8

/-- src/pdf_to.py lines 153-157: the lookahead flag — the next element
exists, is not bold, and its text starts with a colon. -/
def next_starts_with_colon (next : Option TextElement) : Bool :=
  match next with
  | some n => !n.is_bold && startsWithColon n.text
  | none => false

/-- src/pdf_to.py line 174: a bold element qualifies as a heading. -/
def is_heading (regular : ℚ) (elem : TextElement) (next : Option TextElement) : Bool :=
  decide (elem.font_size > regular) || endsWithColon elem.text || next_starts_with_colon next

/-- src/pdf_to.py lines 177-203, the parent-selection loop. The stack is
kept top-first (Python appends and pops at the end of the list, reads the
top as `node_stack[-1]`). The `none` lookup branch is unreachable on the
builder's states — every stacked id is a node of the graph — and mirrors
the fact that Python would fault there rather than pop. -/
def select_parent (g : Graph) (root : String) (fs : ℚ) (u : Bool) :
    List String → List String
  | [] => []
  | candidate :: rest =>
    match lookupNode g candidate with
    | none => candidate :: rest
    | some attrs =>
      if candidate = root ∨ attrs.font_size > fs then
        candidate :: rest
      else if attrs.font_size = fs then
        if attrs.is_underlined = u then
          select_parent g root fs u rest
        else if attrs.is_underlined ∧ !u then
          candidate :: rest
        else
          select_parent g root fs u rest
      else
        select_parent g root fs u rest

/-- src/pdf_to.py lines 204-208: the parent and the stack after the
walk — when the stack has emptied, the root becomes the parent and the
stack is reset to contain only the root. -/
def parentAndStack (root : String) (stack1 : List String) : String × List String :=
  match stack1 with
  | [] => (root, [root])
  | p :: rest => (p, p :: rest)

/-- The builder's mutable state: the graph, `current_node`, `node_stack`
(top-first) and the `first_bold_skipped` flag. -/
structure BuilderState where
  graph : Graph
  current_node : String
  node_stack : List String
  first_bold_skipped : Bool
deriving Repr, DecidableEq

/-- src/pdf_to.py lines 146-230: processing of one element, with `next`
the immediately following element when it exists. -/
def processElem (root : String) (regular : ℚ) (st : BuilderState)
    (elem : TextElement) (next : Option TextElement) : BuilderState :=
  if elem.is_bold ∧ !st.first_bold_skipped then
    { st with first_bold_skipped := true }
  else if isStandaloneNumber elem.text then
    st
  else if elem.is_bold then
    if is_heading regular elem next then
      let stack1 := select_parent st.graph root elem.font_size elem.is_underlined st.node_stack
      let ps := parentAndStack root stack1
      let g1 := addNode st.graph elem.text
        { level := ps.2.length, content := "", font_size := elem.font_size,
          is_underlined := elem.is_underlined }
      let g2 := addEdge g1 ps.1 elem.text
      { graph := g2, current_node := elem.text,
        node_stack := elem.text :: ps.2,
        first_bold_skipped := st.first_bold_skipped }
    else
      { st with graph := appendContent st.graph st.current_node elem.text }
  else
    { st with graph := appendContent st.graph st.current_node elem.text }

/-- The main loop over the element list, threading one element of
lookahead. -/
def processAll (root : String) (regular : ℚ) :
    BuilderState → List TextElement → BuilderState
  | st, [] => st
  | st, [e] => processElem root regular st e none
  | st, e :: e2 :: rest =>
      processAll root regular (processElem root regular st e (some e2)) (e2 :: rest)

/-- src/pdf_to.py lines 119-127: the initial state — the synthetic root
node (level 0, empty content, font size 100, not underlined), the stack
holding only the root, and the skip flag down. -/
def initialState (root : String) : BuilderState :=
  { graph := { nodes := [(root, { level := 0, content := "", font_size := 100,
                                  is_underlined := false })],
               edges := [] },
    current_node := root,
    node_stack := [root],
    first_bold_skipped := false }

/-- src/pdf_to.py lines 232-236: trim every node's content, replacing an
empty result with the placeholder. -/
def finalize_content (g : Graph) : Graph :=
  { g with nodes := g.nodes.map (fun p =>
      let c := pyStrip p.2.content
      (p.1, { p.2 with content := if c = "" then "(No description)" else c })) }

/-- `build_knowledge_graph(elements, pdf_name)` — `root` stands for
`os.path.splitext(os.path.basename(pdf_name))[0]`, the document name with
its extension stripped. -/
def build_knowledge_graph (elements : List TextElement) (root : String) : Graph :=
  finalize_content
    (processAll root (regular_font_size elements) (initialState root) elements).graph

end PdfTo

namespace PdfTo

/-! ### Helper lemmas about the graph operations -/

/-- Node ids in insertion order. -/
def ids (g : Graph) : List String := g.nodes.map Prod.fst

lemma edges_addNode (g : Graph) (id : String) (a : NodeAttrs) :
    (addNode g id a).edges = g.edges := by
  unfold addNode; split <;> rfl

lemma edges_appendContent (g : Graph) (id t : String) :
    (appendContent g id t).edges = g.edges := by
  unfold appendContent; split <;> rfl

lemma nodes_addEdge (g : Graph) (u v : String) :
    (addEdge g u v).nodes = g.nodes := by
  unfold addEdge; split <;> rfl

lemma lookupNode_addEdge (g : Graph) (u v x : String) :
    lookupNode (addEdge g u v) x = lookupNode g x := by
  unfold lookupNode; rw [nodes_addEdge]

lemma ids_addEdge (g : Graph) (u v : String) : ids (addEdge g u v) = ids g := by
  unfold ids; rw [nodes_addEdge]

lemma edges_addEdge_new (g : Graph) (u v : String) (h : (u, v) ∉ g.edges) :
    (addEdge g u v).edges = g.edges ++ [(u, v)] := by
  unfold addEdge; rw [if_neg h]

lemma hasNode_iff (g : Graph) (id : String) :
    hasNode g id = true ↔ id ∈ ids g := by
  unfold hasNode ids
  rw [List.any_eq_true]
  constructor
  · rintro ⟨p, hp, hpx⟩
    exact List.mem_map.mpr ⟨p, hp, by simpa using hpx⟩
  · intro hmem
    obtain ⟨p, hp, hpx⟩ := List.mem_map.mp hmem
    exact ⟨p, hp, by simpa using hpx⟩

lemma lookupNode_mem_ids (g : Graph) (x : String) (a : NodeAttrs)
    (h : lookupNode g x = some a) : x ∈ ids g := by
  unfold lookupNode at h
  obtain ⟨p, hp, hps⟩ := Option.map_eq_some'.mp h
  have hmem := List.mem_of_find?_eq_some hp
  have hpx : p.1 = x := by simpa using List.find?_some hp
  exact List.mem_map.mpr ⟨p, hmem, hpx⟩

lemma lookupNode_isSome_of_mem (g : Graph) (x : String) (h : x ∈ ids g) :
    (lookupNode g x).isSome = true := by
  unfold lookupNode
  obtain ⟨p, hp, hpx⟩ := List.mem_map.mp h
  cases hfind : g.nodes.find? (fun q => q.1 = x) with
  | none =>
    rw [List.find?_eq_none] at hfind
    exact absurd (by simpa using hpx) (by simpa using hfind p hp)
  | some q => simp

/-- Replacing the value stored at one key of the node association list:
effect on lookups. -/
lemma lookupNode_replace (g : Graph) (f : NodeAttrs → NodeAttrs) (id x : String) :
    lookupNode { g with nodes := (g.nodes.map
        (fun p => if p.1 = id then (p.1, f p.2) else p)) } x =
      if x = id then (lookupNode g x).map f else lookupNode g x := by
  unfold lookupNode
  show ((g.nodes.map (fun p => if p.1 = id then (p.1, f p.2) else p)).find?
      (fun p => p.1 = x)).map Prod.snd = _
  rw [List.find?_map]
  have hcomp : ((fun p : String × NodeAttrs => decide (p.1 = x)) ∘
      (fun p => if p.1 = id then (p.1, f p.2) else p)) =
      (fun p : String × NodeAttrs => decide (p.1 = x)) := by
    funext q
    by_cases h : q.1 = id <;> simp [h]
  rw [hcomp]
  cases hfind : g.nodes.find? (fun p => p.1 = x) with
  | none => simp
  | some q =>
    have hq : q.1 = x := by simpa using List.find?_some hfind
    by_cases h : x = id
    · simp [hq, h]
    · simp [hq, h]

lemma ids_replace (g : Graph) (f : NodeAttrs → NodeAttrs) (id : String) :
    ids { g with nodes := (g.nodes.map
        (fun p => if p.1 = id then (p.1, f p.2) else p)) } = ids g := by
  unfold ids
  show (g.nodes.map (fun p => if p.1 = id then (p.1, f p.2) else p)).map Prod.fst = _
  rw [List.map_map]
  apply List.map_congr_left
  intro p _
  by_cases h : p.1 = id <;> simp [h]

lemma lookupNode_appendContent (g : Graph) (id t x : String) :
    lookupNode (appendContent g id t) x =
      if x = id ∧ hasNode g id = true then
        (lookupNode g x).map (fun a => { a with content := a.content ++ " " ++ t })
      else lookupNode g x := by
  unfold appendContent
  by_cases hh : hasNode g id = true
  · rw [if_pos hh]
    refine Eq.trans
      (lookupNode_replace g (fun a => { a with content := a.content ++ " " ++ t }) id x) ?_
    by_cases hx : x = id
    · rw [if_pos hx, if_pos ⟨hx, hh⟩]
    · rw [if_neg hx, if_neg (fun hc => hx hc.1)]
  · rw [if_neg hh, if_neg (fun hc => hh hc.2)]

lemma ids_appendContent (g : Graph) (id t : String) :
    ids (appendContent g id t) = ids g := by
  unfold appendContent
  split
  · exact ids_replace g (fun a => { a with content := a.content ++ " " ++ t }) id
  · rfl

lemma lookupNode_addNode (g : Graph) (id : String) (a : NodeAttrs) (x : String) :
    lookupNode (addNode g id a) x = if x = id then some a else lookupNode g x := by
  unfold addNode
  by_cases hh : hasNode g id = true
  · rw [if_pos hh]
    refine Eq.trans (lookupNode_replace g (fun _ => a) id x) ?_
    by_cases hx : x = id
    · rw [if_pos hx, if_pos hx]
      have hs := lookupNode_isSome_of_mem g id ((hasNode_iff g id).mp hh)
      rw [hx]
      obtain ⟨b, hb⟩ := Option.isSome_iff_exists.mp hs
      rw [hb]
      rfl
    · rw [if_neg hx, if_neg hx]
  · rw [if_neg hh]
    unfold lookupNode
    show ((g.nodes ++ [(id, a)]).find? (fun p => p.1 = x)).map Prod.snd = _
    rw [List.find?_append]
    by_cases hx : x = id
    · have hnone : g.nodes.find? (fun p => decide (p.1 = x)) = none := by
        rw [List.find?_eq_none]
        intro p hp hpx
        apply hh
        rw [hasNode_iff]
        exact List.mem_map.mpr ⟨p, hp, by rw [← hx]; simpa using hpx⟩
      rw [hnone, if_pos hx]
      subst hx
      simp [List.find?_cons]
    · have hne : id ≠ x := fun h => hx h.symm
      rw [if_neg hx]
      have hsing : (([(id, a)] : List (String × NodeAttrs)).find?
          (fun p => decide (p.1 = x))) = none := by
        simp [List.find?_cons, hne]
      rw [hsing, Option.or_none]

lemma ids_addNode_mem (g : Graph) (id : String) (a : NodeAttrs)
    (h : hasNode g id = true) : ids (addNode g id a) = ids g := by
  unfold addNode
  rw [if_pos h]
  exact ids_replace g (fun _ => a) id

lemma ids_addNode_new (g : Graph) (id : String) (a : NodeAttrs)
    (h : ¬ hasNode g id = true) : ids (addNode g id a) = ids g ++ [id] := by
  unfold addNode
  rw [if_neg h]
  unfold ids
  rw [List.map_append]
  rfl

lemma inDegree_eq_countP (g : Graph) (x : String) :
    inDegree g x = (g.edges.map Prod.snd).countP (fun t => t = x) := by
  unfold inDegree
  rw [List.countP_map, List.countP_eq_length_filter]
  rfl

end PdfTo

namespace PdfTo

/-! ### Stack lemmas -/

/-- The stack ids carry the levels 0, 1, ... bottom-up: the top of a
stack of n+1 entries has level n. -/
def stackLevels (g : Graph) : List String → Prop
  | [] => True
  | id :: rest =>
      (∃ a, lookupNode g id = some a ∧ a.level = rest.length) ∧ stackLevels g rest

lemma stackLevels_of_lookup_eq (g g2 : Graph) (l : List String)
    (h : ∀ x ∈ l, lookupNode g2 x = lookupNode g x) :
    stackLevels g l → stackLevels g2 l := by
  induction l with
  | nil => intro _; trivial
  | cons c rest ih =>
    rintro ⟨⟨a, ha, hl⟩, htail⟩
    refine ⟨⟨a, ?_, hl⟩, ih (fun x hx => h x (List.mem_cons_of_mem c hx)) htail⟩
    rw [h c (List.mem_cons_self c rest)]
    exact ha

lemma stackLevels_suffix (g : Graph) (s l : List String)
    (hs : s <:+ l) (h : stackLevels g l) : stackLevels g s := by
  obtain ⟨t, rfl⟩ := hs
  induction t with
  | nil => exact h
  | cons a t ih => exact ih h.2

lemma stackLevels_mem_ids (g : Graph) (l : List String)
    (h : stackLevels g l) : ∀ x ∈ l, x ∈ ids g := by
  induction l with
  | nil => intro x hx; cases hx
  | cons c rest ih =>
    intro x hx
    rcases List.mem_cons.mp hx with hx | hx
    · obtain ⟨a, ha, _⟩ := h.1
      rw [hx]
      exact lookupNode_mem_ids g c a ha
    · exact ih h.2 x hx

lemma select_parent_suffix (g : Graph) (root : String) (fs : ℚ) (u : Bool)
    (l : List String) : select_parent g root fs u l <:+ l := by
  induction l with
  | nil => exact List.suffix_refl _
  | cons c rest ih =>
    show select_parent g root fs u (c :: rest) <:+ c :: rest
    unfold select_parent
    cases lookupNode g c with
    | none => exact List.suffix_refl _
    | some attrs =>
      dsimp only
      by_cases h1 : c = root ∨ attrs.font_size > fs
      · rw [if_pos h1]
      · rw [if_neg h1]
        by_cases h2 : attrs.font_size = fs
        · rw [if_pos h2]
          by_cases h3 : attrs.is_underlined = u
          · rw [if_pos h3]; exact ih.trans (List.suffix_cons c rest)
          · rw [if_neg h3]
            by_cases h4 : attrs.is_underlined = true ∧ (!u) = true
            · rw [if_pos h4]
            · rw [if_neg h4]; exact ih.trans (List.suffix_cons c rest)
        · rw [if_neg h2]; exact ih.trans (List.suffix_cons c rest)

lemma select_parent_ne_nil (g : Graph) (root : String) (fs : ℚ) (u : Bool)
    (l : List String) : select_parent g root fs u (l ++ [root]) ≠ [] := by
  induction l with
  | nil =>
    show select_parent g root fs u (root :: []) ≠ []
    unfold select_parent
    cases lookupNode g root with
    | none => exact List.cons_ne_nil _ _
    | some attrs =>
      dsimp only
      rw [if_pos (Or.inl rfl)]
      exact List.cons_ne_nil _ _
  | cons c rest ih =>
    show select_parent g root fs u (c :: (rest ++ [root])) ≠ []
    unfold select_parent
    cases lookupNode g c with
    | none => exact List.cons_ne_nil _ _
    | some attrs =>
      dsimp only
      by_cases h1 : c = root ∨ attrs.font_size > fs
      · rw [if_pos h1]; exact List.cons_ne_nil _ _
      · rw [if_neg h1]
        by_cases h2 : attrs.font_size = fs
        · rw [if_pos h2]
          by_cases h3 : attrs.is_underlined = u
          · rw [if_pos h3]; exact ih
          · rw [if_neg h3]
            by_cases h4 : attrs.is_underlined = true ∧ (!u) = true
            · rw [if_pos h4]; exact List.cons_ne_nil _ _
            · rw [if_neg h4]; exact ih
        · rw [if_neg h2]; exact ih

lemma suffix_ends_with_last {s l : List String} {root : String}
    (hs : s <:+ l ++ [root]) (hne : s ≠ []) : ∃ m, s = m ++ [root] := by
  obtain ⟨t, ht⟩ := hs
  rcases s.eq_nil_or_concat with hnil | ⟨m, a, hma⟩
  · exact absurd hnil hne
  · rw [List.concat_eq_append] at hma
    subst hma
    have hlast : ((t ++ m) ++ [a]).getLast? = (l ++ [root]).getLast? := by
      rw [List.append_assoc, ht]
    rw [List.getLast?_concat, List.getLast?_concat] at hlast
    exact ⟨m, by rw [Option.some_inj.mp hlast]⟩

/-! ### A counting helper -/

lemma countP_eq_one_of_nodup {l : List String} (hn : l.Nodup) {x : String}
    (hx : x ∈ l) : l.countP (fun t => t = x) = 1 := by
  induction l with
  | nil => cases hx
  | cons a rest ih =>
    have hna := (List.nodup_cons.mp hn).1
    have hnr := (List.nodup_cons.mp hn).2
    rw [List.countP_cons]
    rcases List.mem_cons.mp hx with hx | hx
    · subst hx
      have h0 : rest.countP (fun t => t = x) = 0 := by
        rw [List.countP_eq_zero]
        intro b hb
        simp only [decide_eq_true_eq]
        intro hbx
        subst hbx
        exact hna hb
      rw [h0]
      simp
    · have hax : (a = x) = False := by
        apply eq_false
        intro h
        subst h
        exact hna hx
      rw [ih hnr hx]
      simp [hax]

/-! ### Finalization lemmas -/

lemma edges_finalize (g : Graph) : (finalize_content g).edges = g.edges := rfl

lemma ids_finalize (g : Graph) : ids (finalize_content g) = ids g := by
  unfold ids finalize_content
  show (g.nodes.map _).map Prod.fst = _
  rw [List.map_map]
  apply List.map_congr_left
  intro p _
  rfl

lemma lookupNode_finalize (g : Graph) (x : String) :
    lookupNode (finalize_content g) x = (lookupNode g x).map (fun a =>
      { a with content := if pyStrip a.content = "" then "(No description)"
                          else pyStrip a.content }) := by
  unfold lookupNode finalize_content
  show ((g.nodes.map _).find? (fun p => p.1 = x)).map Prod.snd = _
  rw [List.find?_map]
  have hcomp : ((fun p : String × NodeAttrs => decide (p.1 = x)) ∘
      (fun p : String × NodeAttrs =>
        let c := pyStrip p.2.content
        (p.1, { p.2 with content := if c = "" then "(No description)" else c }))) =
      (fun p : String × NodeAttrs => decide (p.1 = x)) := by
    funext q
    rfl
  rw [hcomp]
  cases hfind : g.nodes.find? (fun p => p.1 = x) with
  | none => rfl
  | some q => rfl

end PdfTo

namespace PdfTo

/-! ### The builder invariant -/

/-- Invariant maintained by the builder when every element text is fresh
(never seen before, never equal to the root id): node ids are distinct,
the root is a level-0 node, the edge targets are exactly the non-root
node ids in insertion order, the stack ends at the root and carries
levels n, ..., 1, 0 top-down, and every edge increases the level by
one. `seen` collects the texts of the elements already processed. -/
structure Inv (root : String) (seen : List String) (st : BuilderState) : Prop where
  nodup : (ids st.graph).Nodup
  root_level : ∃ a, lookupNode st.graph root = some a ∧ a.level = 0
  targets : st.graph.edges.map Prod.snd = (ids st.graph).filter (fun x => x ≠ root)
  ids_seen : ∀ x ∈ ids st.graph, x = root ∨ x ∈ seen
  stack_root : ∃ m, st.node_stack = m ++ [root]
  stack_levels : stackLevels st.graph st.node_stack
  edge_levels : ∀ e ∈ st.graph.edges, ∃ ap ac, lookupNode st.graph e.1 = some ap ∧
      lookupNode st.graph e.2 = some ac ∧ ac.level = ap.level + 1

lemma Inv.mono {root : String} {seen : List String} {st : BuilderState}
    (h : Inv root seen st) {seen2 : List String}
    (hsub : ∀ x ∈ seen, x ∈ seen2) : Inv root seen2 st :=
  ⟨h.nodup, h.root_level, h.targets,
    fun x hx => (h.ids_seen x hx).imp id (hsub x),
    h.stack_root, h.stack_levels, h.edge_levels⟩

lemma stackLevels_of_level_eq (g g2 : Graph) (l : List String)
    (h : ∀ x ∈ l, (lookupNode g2 x).map NodeAttrs.level =
      (lookupNode g x).map NodeAttrs.level) :
    stackLevels g l → stackLevels g2 l := by
  induction l with
  | nil => intro _; trivial
  | cons c rest ih =>
    rintro ⟨⟨a, ha, hl⟩, htail⟩
    have hmap := h c (List.mem_cons_self c rest)
    rw [ha] at hmap
    obtain ⟨b, hb, hlb⟩ := Option.map_eq_some'.mp hmap
    exact ⟨⟨b, hb, by rw [hlb, hl]⟩,
      ih (fun x hx => h x (List.mem_cons_of_mem c hx)) htail⟩

lemma lookupNode_appendContent_level (g : Graph) (id t x : String) :
    (lookupNode (appendContent g id t) x).map NodeAttrs.level =
      (lookupNode g x).map NodeAttrs.level := by
  rw [lookupNode_appendContent]
  split
  · rw [Option.map_map]
    rfl
  · rfl

lemma lookup_level_transfer {g g2 : Graph} {x : String} {a : NodeAttrs}
    (hmap : (lookupNode g2 x).map NodeAttrs.level =
      (lookupNode g x).map NodeAttrs.level)
    (ha : lookupNode g x = some a) :
    ∃ b, lookupNode g2 x = some b ∧ b.level = a.level := by
  rw [ha] at hmap
  obtain ⟨b, hb, hlb⟩ := Option.map_eq_some'.mp hmap
  exact ⟨b, hb, hlb⟩

/-- Appending content to any node preserves the invariant: node ids,
levels and edges are untouched. -/
lemma Inv_appendContent {root : String} {seen : List String} {st : BuilderState}
    (h : Inv root seen st) (cur t : String) :
    Inv root seen { st with graph := appendContent st.graph cur t } := by
  have hids : ids (appendContent st.graph cur t) = ids st.graph :=
    ids_appendContent _ _ _
  have hedges : (appendContent st.graph cur t).edges = st.graph.edges :=
    edges_appendContent _ _ _
  have hlevel := fun x => lookupNode_appendContent_level st.graph cur t x
  refine ⟨?_, ?_, ?_, ?_, ?_, ?_, ?_⟩
  · show (ids (appendContent st.graph cur t)).Nodup
    rw [hids]; exact h.nodup
  · obtain ⟨a, ha, h0⟩ := h.root_level
    obtain ⟨b, hb, hlb⟩ := lookup_level_transfer (hlevel root) ha
    exact ⟨b, hb, by rw [hlb, h0]⟩
  · show (appendContent st.graph cur t).edges.map Prod.snd = _
    rw [hedges, hids]
    exact h.targets
  · show ∀ x ∈ ids (appendContent st.graph cur t), _
    rw [hids]; exact h.ids_seen
  · exact h.stack_root
  · exact stackLevels_of_level_eq st.graph _ _ (fun x _ => hlevel x) h.stack_levels
  · show ∀ e ∈ (appendContent st.graph cur t).edges, _
    rw [hedges]
    intro e he
    obtain ⟨ap, ac, hap, hac, hl⟩ := h.edge_levels e he
    obtain ⟨bp, hbp, hlbp⟩ := lookup_level_transfer (hlevel e.1) hap
    obtain ⟨bc, hbc, hlbc⟩ := lookup_level_transfer (hlevel e.2) hac
    exact ⟨bp, bc, hbp, hbc, by rw [hlbc, hlbp, hl]⟩

end PdfTo

namespace PdfTo

/-- Inserting a fresh heading preserves the invariant. The state below is
the heading branch of `processElem` with its lets unfolded. -/
lemma heading_insert_inv (root t : String) (fs : ℚ) (u : Bool)
    (st : BuilderState) (seen : List String) (hinv : Inv root seen st)
    (hfresh : t ∉ seen) (hne : t ≠ root) :
    Inv root (seen ++ [t])
      { graph := addEdge
          (addNode st.graph t
            { level := (parentAndStack root
                (select_parent st.graph root fs u st.node_stack)).2.length,
              content := "", font_size := fs, is_underlined := u })
          (parentAndStack root (select_parent st.graph root fs u st.node_stack)).1 t,
        current_node := t,
        node_stack := t :: (parentAndStack root
          (select_parent st.graph root fs u st.node_stack)).2,
        first_bold_skipped := st.first_bold_skipped } := by
  obtain ⟨m, hm⟩ := hinv.stack_root
  have hs1ne : select_parent st.graph root fs u st.node_stack ≠ [] := by
    rw [hm]
    exact select_parent_ne_nil st.graph root fs u m
  obtain ⟨p, rest, hpr⟩ : ∃ p rest,
      select_parent st.graph root fs u st.node_stack = p :: rest := by
    cases hsp : select_parent st.graph root fs u st.node_stack with
    | nil => exact absurd hsp hs1ne
    | cons p rest => exact ⟨p, rest, rfl⟩
  rw [hpr]
  show Inv root (seen ++ [t])
    { graph := addEdge (addNode st.graph t
        { level := (p :: rest).length, content := "", font_size := fs,
          is_underlined := u }) p t,
      current_node := t, node_stack := t :: p :: rest,
      first_bold_skipped := st.first_bold_skipped }
  have hsuf : p :: rest <:+ st.node_stack := by
    rw [← hpr]
    exact select_parent_suffix _ _ _ _ _
  have hsl : stackLevels st.graph (p :: rest) :=
    stackLevels_suffix st.graph _ _ hsuf hinv.stack_levels
  obtain ⟨ap, hap, haplevel⟩ := hsl.1
  have hfreshids : t ∉ ids st.graph := by
    intro hmem
    rcases hinv.ids_seen t hmem with h | h
    · exact hne h
    · exact hfresh h
  have hhas : ¬ hasNode st.graph t = true := by
    intro hh
    exact hfreshids ((hasNode_iff _ _).mp hh)
  have hids1 : ids (addNode st.graph t
      { level := (p :: rest).length, content := "", font_size := fs,
        is_underlined := u }) = ids st.graph ++ [t] :=
    ids_addNode_new _ _ _ hhas
  have hedges1 : (addNode st.graph t
      { level := (p :: rest).length, content := "", font_size := fs,
        is_underlined := u }).edges = st.graph.edges := edges_addNode _ _ _
  have hnotedge : (p, t) ∉ st.graph.edges := by
    intro hmem
    have ht : t ∈ st.graph.edges.map Prod.snd := List.mem_map.mpr ⟨(p, t), hmem, rfl⟩
    rw [hinv.targets] at ht
    exact hfreshids (List.mem_filter.mp ht).1
  have hnotedge1 : (p, t) ∉ (addNode st.graph t
      { level := (p :: rest).length, content := "", font_size := fs,
        is_underlined := u }).edges := by
    rw [hedges1]
    exact hnotedge
  have hedges2 : (addEdge (addNode st.graph t
      { level := (p :: rest).length, content := "", font_size := fs,
        is_underlined := u }) p t).edges = st.graph.edges ++ [(p, t)] := by
    rw [edges_addEdge_new _ _ _ hnotedge1, hedges1]
  have hids2 : ids (addEdge (addNode st.graph t
      { level := (p :: rest).length, content := "", font_size := fs,
        is_underlined := u }) p t) = ids st.graph ++ [t] := by
    rw [ids_addEdge, hids1]
  have hlook2 : ∀ x, lookupNode (addEdge (addNode st.graph t
      { level := (p :: rest).length, content := "", font_size := fs,
        is_underlined := u }) p t) x =
      if x = t then
        some ({ level := (p :: rest).length, content := "", font_size := fs,
                is_underlined := u } : NodeAttrs)
      else lookupNode st.graph x := by
    intro x
    rw [lookupNode_addEdge]
    exact lookupNode_addNode _ _ _ x
  have hmemids : ∀ x ∈ st.node_stack, x ∈ ids st.graph :=
    stackLevels_mem_ids st.graph _ hinv.stack_levels
  refine ⟨?_, ?_, ?_, ?_, ?_, ?_, ?_⟩
  · show (ids _).Nodup
    rw [hids2, List.nodup_append]
    refine ⟨hinv.nodup, List.nodup_singleton t, ?_⟩
    intro x hx hxt
    rw [List.mem_singleton] at hxt
    exact hfreshids (hxt ▸ hx)
  · obtain ⟨a, ha, h0⟩ := hinv.root_level
    refine ⟨a, ?_, h0⟩
    rw [hlook2 root, if_neg (fun h => hne h.symm)]
    exact ha
  · show (addEdge _ _ _).edges.map Prod.snd = (ids _).filter _
    rw [hedges2, hids2, List.map_append, List.filter_append, hinv.targets]
    congr 1
    simp [hne]
  · show ∀ x ∈ ids (addEdge _ _ _), _
    rw [hids2]
    intro x hx
    rcases List.mem_append.mp hx with hx | hx
    · exact (hinv.ids_seen x hx).imp id (List.mem_append_left _)
    · right
      exact List.mem_append_right _ hx
  · obtain ⟨m2, hm2⟩ := suffix_ends_with_last (hm ▸ hsuf) (List.cons_ne_nil p rest)
    exact ⟨t :: m2, by rw [hm2]; rfl⟩
  · refine ⟨⟨({ level := (p :: rest).length, content := "", font_size := fs, is_underlined := u } : NodeAttrs), ?_, rfl⟩, ?_⟩
    · rw [hlook2 t, if_pos rfl]
    · refine stackLevels_of_lookup_eq st.graph _ _ ?_ hsl
      intro x hx
      rw [hlook2 x]
      rw [if_neg ?_]
      intro hxt
      exact hfreshids (hxt ▸ hmemids x (hsuf.subset hx))
  · show ∀ e ∈ (addEdge _ _ _).edges, _
    rw [hedges2]
    intro e he
    rcases List.mem_append.mp he with he | he
    · obtain ⟨ep, ec, hep, hec, hl⟩ := hinv.edge_levels e he
      refine ⟨ep, ec, ?_, ?_, hl⟩
      · rw [hlook2 e.1, if_neg ?_]
        · exact hep
        · intro h1t
          exact hfreshids (h1t ▸ lookupNode_mem_ids _ _ _ hep)
      · rw [hlook2 e.2, if_neg ?_]
        · exact hec
        · intro h2t
          exact hfreshids (h2t ▸ lookupNode_mem_ids _ _ _ hec)
    · rw [List.mem_singleton] at he
      subst he
      refine ⟨ap, ({ level := (p :: rest).length, content := "", font_size := fs, is_underlined := u } : NodeAttrs), ?_, ?_, ?_⟩
      · show lookupNode _ p = some ap
        rw [hlook2 p, if_neg ?_]
        · exact hap
        · intro hpt
          exact hfreshids (hpt ▸ lookupNode_mem_ids _ _ _ hap)
      · show lookupNode _ t = some _
        rw [hlook2 t, if_pos rfl]
      · show (p :: rest).length = ap.level + 1
        rw [haplevel, List.length_cons]

end PdfTo

namespace PdfTo

/-- One step of `processElem` preserves the invariant when the element's
text is fresh. -/
lemma processElem_inv (root : String) (regular : ℚ) (st : BuilderState)
    (elem : TextElement) (next : Option TextElement) (seen : List String)
    (hinv : Inv root seen st) (hfresh : elem.text ∉ seen)
    (hne : elem.text ≠ root) :
    Inv root (seen ++ [elem.text]) (processElem root regular st elem next) := by
  have hmono : ∀ x ∈ seen, x ∈ seen ++ [elem.text] :=
    fun x hx => List.mem_append_left _ hx
  have hbase : Inv root (seen ++ [elem.text]) st := Inv.mono hinv hmono
  unfold processElem
  by_cases h1 : elem.is_bold = true ∧ (!st.first_bold_skipped) = true
  · rw [if_pos h1]
    exact ⟨hbase.nodup, hbase.root_level, hbase.targets, hbase.ids_seen,
      hbase.stack_root, hbase.stack_levels, hbase.edge_levels⟩
  · rw [if_neg h1]
    by_cases h2 : isStandaloneNumber elem.text = true
    · rw [if_pos h2]
      exact hbase
    · rw [if_neg h2]
      by_cases h3 : elem.is_bold = true
      · rw [if_pos h3]
        by_cases h4 : is_heading regular elem next = true
        · rw [if_pos h4]
          exact heading_insert_inv root elem.text elem.font_size
            elem.is_underlined st seen hinv hfresh hne
        · rw [if_neg h4]
          exact Inv_appendContent hbase st.current_node elem.text
      · rw [if_neg h3]
        exact Inv_appendContent hbase st.current_node elem.text

/-- The invariant is carried through the whole run when the remaining
elements' texts are fresh, pairwise distinct and distinct from the
root. -/
lemma processAll_inv (root : String) (regular : ℚ) (rem : List TextElement) :
    ∀ (st : BuilderState) (seen : List String),
      (∀ e ∈ rem, e.text ∉ seen) →
      (rem.map TextElement.text).Nodup →
      (∀ e ∈ rem, e.text ≠ root) →
      Inv root seen st →
      Inv root (seen ++ rem.map TextElement.text)
        (processAll root regular st rem) := by
  induction rem with
  | nil =>
    intro st seen _ _ _ hinv
    simpa using hinv
  | cons e rem2 ih =>
    intro st seen hfresh hnd hroot hinv
    cases rem2 with
    | nil =>
      have hstep := processElem_inv root regular st e none seen hinv
        (hfresh e (List.mem_cons_self e _)) (hroot e (List.mem_cons_self e _))
      simpa using hstep
    | cons e2 rem3 =>
      show Inv root _ (processAll root regular
        (processElem root regular st e (some e2)) (e2 :: rem3))
      have hstep := processElem_inv root regular st e (some e2) seen hinv
        (hfresh e (List.mem_cons_self e _)) (hroot e (List.mem_cons_self e _))
      have hnd2 : ((e2 :: rem3).map TextElement.text).Nodup :=
        (List.nodup_cons.mp hnd).2
      have hhead : e.text ∉ (e2 :: rem3).map TextElement.text :=
        (List.nodup_cons.mp hnd).1
      have hfresh2 : ∀ x ∈ e2 :: rem3, x.text ∉ seen ++ [e.text] := by
        intro x hx hmem
        rcases List.mem_append.mp hmem with hmem | hmem
        · exact hfresh x (List.mem_cons_of_mem e hx) hmem
        · rw [List.mem_singleton] at hmem
          exact hhead (hmem ▸ List.mem_map.mpr ⟨x, hx, rfl⟩)
      have hroot2 : ∀ x ∈ e2 :: rem3, x.text ≠ root :=
        fun x hx => hroot x (List.mem_cons_of_mem e hx)
      have htail := ih (processElem root regular st e (some e2))
        (seen ++ [e.text]) hfresh2 hnd2 hroot2 hstep
      rw [List.append_assoc] at htail
      exact htail

/-- The initial state satisfies the invariant with no text seen. -/
lemma initial_inv (root : String) : Inv root [] (initialState root) := by
  have hlook : lookupNode (initialState root).graph root =
      some { level := 0, content := "", font_size := 100, is_underlined := false } := by
    show (([( root, ({ level := 0, content := "", font_size := 100, is_underlined := false } : NodeAttrs))] : List (String × NodeAttrs)).find? (fun p => p.1 = root)).map Prod.snd = _
    simp [List.find?_cons]
  refine ⟨?_, ?_, ?_, ?_, ?_, ?_, ?_⟩
  · show List.Nodup [root]
    exact List.nodup_singleton root
  · exact ⟨_, hlook, rfl⟩
  · show ([] : List (String × String)).map Prod.snd = [root].filter (fun x => x ≠ root)
    simp
  · intro x hx
    left
    have hx2 : x ∈ [root] := hx
    simpa using hx2
  · exact ⟨[], rfl⟩
  · exact ⟨⟨_, hlook, rfl⟩, trivial⟩
  · intro e he
    cases he

end PdfTo

namespace PdfTo

/-! ### Concrete scenarios -/

/-- The literal tie-break scenario of the spec: a bold title (fs 14), an
underlined bold "Section A:" (fs 12), body text, a non-underlined bold
"Section B:" (fs 12), body text. -/
def tieBreakElems : List TextElement :=
  [⟨"Title", "F-Bold", 14, true, false, 1⟩,
   ⟨"Section A:", "F-Bold", 12, true, true, 1⟩,
   ⟨"body1", "F", 10, false, false, 1⟩,
   ⟨"Section B:", "F-Bold", 12, true, false, 1⟩,
   ⟨"body2", "F", 10, false, false, 1⟩]

/-- A sequence in which the heading text "X:" occurs twice, the second
time at a different position in the hierarchy. -/
def dupElems : List TextElement :=
  [⟨"Title", "F-Bold", 14, true, false, 1⟩,
   ⟨"A:", "F-Bold", 12, true, false, 1⟩,
   ⟨"X:", "F-Bold", 10, true, false, 1⟩,
   ⟨"X:", "F-Bold", 12, true, false, 1⟩]

/-- C1 counterexample: on the literal tie-break sequence the builder does
NOT attach "Section B:" to the root — there is no edge root → "Section B:";
instead "Section B:" is attached under "Section A:". At equal font size
the underlined stack top stops the walk (src/pdf_to.py line 193), so the
non-underlined "Section B:" nests below the underlined "Section A:". -/
theorem tie_break_scenario_counterexample :
    ("doc", "Section B:") ∉ (build_knowledge_graph tieBreakElems "doc").edges ∧
    ("Section A:", "Section B:") ∈ (build_knowledge_graph tieBreakElems "doc").edges := by
  decide

/-- C1 (amended): on the literal tie-break sequence the builder produces
root → "Section A:" (content "body1") and "Section A:" → "Section B:"
(content "body2"): the two sections are parent and child, not siblings. -/
theorem tie_break_scenario_actual :
    build_knowledge_graph tieBreakElems "doc" =
      { nodes := [("doc", ⟨0, "(No description)", 100, false⟩),
                  ("Section A:", ⟨1, "body1", 12, true⟩),
                  ("Section B:", ⟨2, "body2", 12, false⟩)],
        edges := [("doc", "Section A:"), ("Section A:", "Section B:")] } := by
  decide

/-- C4 counterexample: with the duplicated heading text "X:" the shared
node ends up with two incoming edges, refuting parent uniqueness for
arbitrary inputs. -/
theorem unique_parent_counterexample :
    ("X:", ({ level := 1, content := "(No description)", font_size := 12,
              is_underlined := false } : NodeAttrs)) ∈
        (build_knowledge_graph dupElems "doc").nodes ∧
    "X:" ≠ "doc" ∧
    inDegree (build_knowledge_graph dupElems "doc") "X:" = 2 := by
  decide

/-- C5 counterexample: with the duplicated heading text "X:" the edge
"A:" → "X:" survives while the second insertion has rewritten the level
of "X:" to 1 = level of "A:", so level(child) = level(parent) + 1 fails
on that edge. -/
theorem edge_level_counterexample :
    ("A:", "X:") ∈ (build_knowledge_graph dupElems "doc").edges ∧
    lookupNode (build_knowledge_graph dupElems "doc") "A:" =
      some ⟨1, "(No description)", 12, false⟩ ∧
    lookupNode (build_knowledge_graph dupElems "doc") "X:" =
      some ⟨1, "(No description)", 12, false⟩ ∧
    (1 : Nat) ≠ 1 + 1 := by
  decide

end PdfTo

namespace PdfTo

lemma inDegree_finalize (g : Graph) (x : String) :
    inDegree (finalize_content g) x = inDegree g x := by
  unfold inDegree
  rw [edges_finalize]

lemma mem_addEdge (g : Graph) (u v : String) : (u, v) ∈ (addEdge g u v).edges := by
  unfold addEdge
  by_cases h : (u, v) ∈ g.edges
  · rw [if_pos h]
    exact h
  · rw [if_neg h]
    exact List.mem_append_right _ (List.mem_singleton_self _)

lemma inDegree_addEdge_new (g : Graph) (u v : String) (h : (u, v) ∉ g.edges) :
    inDegree (addEdge g u v) v = inDegree g v + 1 := by
  unfold inDegree
  rw [edges_addEdge_new g u v h, List.filter_append]
  simp

/-- The invariant holds of the final builder state when the element texts
are pairwise distinct and distinct from the root id. -/
lemma build_inv (elements : List TextElement) (root : String)
    (hnd : (elements.map TextElement.text).Nodup)
    (hroot : ∀ e ∈ elements, e.text ≠ root) :
    Inv root (elements.map TextElement.text)
      (processAll root (regular_font_size elements) (initialState root) elements) := by
  have h := processAll_inv root (regular_font_size elements) elements
    (initialState root) [] (fun e _ hmem => List.not_mem_nil _ hmem) hnd hroot
    (initial_inv root)
  simpa using h

/-- C4 (amended): provided no two elements share a text and no element's
text equals the root id, the produced graph has pairwise distinct node
ids, the root is a node with no incoming edge, and every other node has
exactly one incoming edge. -/
theorem unique_parent_invariant (elements : List TextElement) (root : String)
    (hnd : (elements.map TextElement.text).Nodup)
    (hroot : ∀ e ∈ elements, e.text ≠ root) :
    (ids (build_knowledge_graph elements root)).Nodup ∧
    root ∈ ids (build_knowledge_graph elements root) ∧
    inDegree (build_knowledge_graph elements root) root = 0 ∧
    ∀ p ∈ (build_knowledge_graph elements root).nodes, p.1 ≠ root →
      inDegree (build_knowledge_graph elements root) p.1 = 1 := by
  have hinv := build_inv elements root hnd hroot
  have hids : ids (build_knowledge_graph elements root) =
      ids (processAll root (regular_font_size elements)
        (initialState root) elements).graph := ids_finalize _
  have hdeg : ∀ x, inDegree (build_knowledge_graph elements root) x =
      inDegree (processAll root (regular_font_size elements)
        (initialState root) elements).graph x := fun x => inDegree_finalize _ x
  refine ⟨?_, ?_, ?_, ?_⟩
  · rw [hids]
    exact hinv.nodup
  · rw [hids]
    obtain ⟨a, ha, _⟩ := hinv.root_level
    exact lookupNode_mem_ids _ _ _ ha
  · rw [hdeg root, inDegree_eq_countP, hinv.targets, List.countP_eq_zero]
    intro a ha
    have hne := (List.mem_filter.mp ha).2
    simp only [decide_eq_true_eq] at hne ⊢
    exact hne
  · intro p hp hpne
    have hpmem : p.1 ∈ ids (build_knowledge_graph elements root) :=
      List.mem_map.mpr ⟨p, hp, rfl⟩
    rw [hids] at hpmem
    rw [hdeg p.1, inDegree_eq_countP, hinv.targets]
    apply countP_eq_one_of_nodup
    · exact hinv.nodup.filter _
    · rw [List.mem_filter]
      refine ⟨hpmem, ?_⟩
      simp only [decide_eq_true_eq]
      exact hpne

/-- C4 witness: on the tie-break scenario (all texts distinct, none equal
to "doc") the root has in-degree 0 and "Section B:" has in-degree 1. -/
theorem unique_parent_invariant_witness :
    inDegree (build_knowledge_graph tieBreakElems "doc") "doc" = 0 ∧
    inDegree (build_knowledge_graph tieBreakElems "doc") "Section B:" = 1 := by
  have h := unique_parent_invariant tieBreakElems "doc" (by decide) (by decide)
  exact ⟨h.2.2.1, h.2.2.2 ("Section B:", ⟨2, "body2", 12, false⟩) (by decide) (by decide)⟩

/-- C5 (amended): provided no two elements share a text and no element's
text equals the root id, the root node's stored level is 0 and, for every
edge of the produced graph, the child's stored level is the parent's
stored level plus one. (Each heading is then inserted exactly once, with
its level equal to the stack depth at that moment.) -/
theorem edge_level_invariant (elements : List TextElement) (root : String)
    (hnd : (elements.map TextElement.text).Nodup)
    (hroot : ∀ e ∈ elements, e.text ≠ root) :
    (∃ a, lookupNode (build_knowledge_graph elements root) root = some a ∧
      a.level = 0) ∧
    ∀ e ∈ (build_knowledge_graph elements root).edges,
      ∃ ap ac, lookupNode (build_knowledge_graph elements root) e.1 = some ap ∧
        lookupNode (build_knowledge_graph elements root) e.2 = some ac ∧
        ac.level = ap.level + 1 := by
  have hinv := build_inv elements root hnd hroot
  have hlevel : ∀ x, (lookupNode (build_knowledge_graph elements root) x).map
      NodeAttrs.level =
      (lookupNode (processAll root (regular_font_size elements)
        (initialState root) elements).graph x).map NodeAttrs.level := by
    intro x
    unfold build_knowledge_graph
    rw [lookupNode_finalize, Option.map_map]
    rfl
  have hedges : (build_knowledge_graph elements root).edges =
      (processAll root (regular_font_size elements)
        (initialState root) elements).graph.edges := edges_finalize _
  constructor
  · obtain ⟨a, ha, h0⟩ := hinv.root_level
    obtain ⟨b, hb, hlb⟩ := lookup_level_transfer (hlevel root) ha
    exact ⟨b, hb, by rw [hlb, h0]⟩
  · intro e he
    rw [hedges] at he
    obtain ⟨ap, ac, hap, hac, hl⟩ := hinv.edge_levels e he
    obtain ⟨bp, hbp, hlbp⟩ := lookup_level_transfer (hlevel e.1) hap
    obtain ⟨bc, hbc, hlbc⟩ := lookup_level_transfer (hlevel e.2) hac
    exact ⟨bp, bc, hbp, hbc, by rw [hlbc, hlbp, hl]⟩

/-- C5 witness: on the tie-break scenario the root carries level 0, and
the edge "Section A:" → "Section B:" goes from level 1 to level 2. -/
theorem edge_level_invariant_witness :
    (∃ a, lookupNode (build_knowledge_graph tieBreakElems "doc") "doc" = some a ∧
      a.level = 0) ∧
    (∃ ap ac, lookupNode (build_knowledge_graph tieBreakElems "doc") "Section A:" =
        some ap ∧
      lookupNode (build_knowledge_graph tieBreakElems "doc") "Section B:" = some ac ∧
      ac.level = ap.level + 1) := by
  have h := edge_level_invariant tieBreakElems "doc" (by decide) (by decide)
  exact ⟨h.1, h.2 ("Section A:", "Section B:") (by decide)⟩

end PdfTo

namespace PdfTo

/-- C2: the parent-selection walk follows exactly the claimed rules —
stop at the root or at a strictly larger stored font size; at equal font
size pop on equal underline flags, stop when the top is underlined and
the new heading is not, pop when the top is not underlined and the new
heading is; pop at a strictly smaller font size; and an emptied stack
falls back to the root as parent with the stack reset to the root
alone. -/
theorem select_parent_spec (g : Graph) (root : String) (fs : ℚ) (u : Bool)
    (cand : String) (rest : List String) (attrs : NodeAttrs)
    (h : lookupNode g cand = some attrs) :
    (select_parent g root fs u [] = [] ∧
      parentAndStack root [] = (root, [root])) ∧
    (cand = root ∨ attrs.font_size > fs →
      select_parent g root fs u (cand :: rest) = cand :: rest) ∧
    (cand ≠ root → attrs.font_size = fs → attrs.is_underlined = u →
      select_parent g root fs u (cand :: rest) = select_parent g root fs u rest) ∧
    (cand ≠ root → attrs.font_size = fs → attrs.is_underlined = true → u = false →
      select_parent g root fs u (cand :: rest) = cand :: rest) ∧
    (cand ≠ root → attrs.font_size = fs → attrs.is_underlined = false → u = true →
      select_parent g root fs u (cand :: rest) = select_parent g root fs u rest) ∧
    (cand ≠ root → attrs.font_size < fs →
      select_parent g root fs u (cand :: rest) = select_parent g root fs u rest) := by
  have hstep : select_parent g root fs u (cand :: rest) =
      (if cand = root ∨ attrs.font_size > fs then cand :: rest
       else if attrs.font_size = fs then
         if attrs.is_underlined = u then select_parent g root fs u rest
         else if attrs.is_underlined = true ∧ (!u) = true then cand :: rest
         else select_parent g root fs u rest
       else select_parent g root fs u rest) := by
    conv_lhs => rw [select_parent, h]
  refine ⟨⟨rfl, rfl⟩, ?_, ?_, ?_, ?_, ?_⟩
  · intro hc
    rw [hstep, if_pos hc]
  · intro hner heq hu
    have hnot1 : ¬ (cand = root ∨ attrs.font_size > fs) := by
      rintro (hc | hgt)
      · exact hner hc
      · rw [heq] at hgt
        exact lt_irrefl fs hgt
    rw [hstep, if_neg hnot1, if_pos heq, if_pos hu]
  · intro hner heq hu1 hu2
    have hnot1 : ¬ (cand = root ∨ attrs.font_size > fs) := by
      rintro (hc | hgt)
      · exact hner hc
      · rw [heq] at hgt
        exact lt_irrefl fs hgt
    have hne3 : ¬ (attrs.is_underlined = u) := by
      rw [hu1, hu2]
      decide
    rw [hstep, if_neg hnot1, if_pos heq, if_neg hne3,
      if_pos ⟨hu1, by rw [hu2]; rfl⟩]
  · intro hner heq hu1 hu2
    have hnot1 : ¬ (cand = root ∨ attrs.font_size > fs) := by
      rintro (hc | hgt)
      · exact hner hc
      · rw [heq] at hgt
        exact lt_irrefl fs hgt
    have hne3 : ¬ (attrs.is_underlined = u) := by
      rw [hu1, hu2]
      decide
    have hne4 : ¬ (attrs.is_underlined = true ∧ (!u) = true) := by
      rw [hu1, hu2]
      decide
    rw [hstep, if_neg hnot1, if_pos heq, if_neg hne3, if_neg hne4]
  · intro hner hlt
    have hnot1 : ¬ (cand = root ∨ attrs.font_size > fs) := by
      rintro (hc | hgt)
      · exact hner hc
      · exact lt_asymm hlt hgt
    rw [hstep, if_neg hnot1, if_neg (ne_of_lt hlt)]

/-- C2 witness: with the singleton stack holding the root of the initial
graph, the walk stops at the root. -/
theorem select_parent_spec_witness :
    select_parent (initialState "doc").graph "doc" 12 false ["doc"] = ["doc"] := by
  have h := select_parent_spec (initialState "doc").graph "doc" 12 false "doc" []
    ({ level := 0, content := "", font_size := 100, is_underlined := false } : NodeAttrs)
    (by decide)
  exact h.2.1 (Or.inl rfl)

/-- C3: a bold element surviving the skips is promoted to a heading iff
its font size strictly exceeds the regular font size, or its text ends
with a colon, or the next element exists, is non-bold and starts with a
colon; and the regular font size is the first non-bold element's font
size, 8.0 when every element is bold. -/
theorem heading_qualification (elements : List TextElement) (root : String)
    (st : BuilderState) (elem : TextElement) (next : Option TextElement)
    (hb : elem.is_bold = true) (hs : st.first_bold_skipped = true)
    (hn : isStandaloneNumber elem.text = false) :
    (is_heading (regular_font_size elements) elem next = true ↔
      (elem.font_size > regular_font_size elements ∨
       endsWithColon elem.text = true ∨
       ∃ n, next = some n ∧ n.is_bold = false ∧ startsWithColon n.text = true)) ∧
    (∀ e, elements.find? (fun e => !e.is_bold) = some e →
      regular_font_size elements = e.font_size) ∧
    ((∀ e ∈ elements, e.is_bold = true) → regular_font_size elements = 8) ∧
    (is_heading (regular_font_size elements) elem next = true →
      (processElem root (regular_font_size elements) st elem next).node_stack =
        elem.text :: (parentAndStack root (select_parent st.graph root
          elem.font_size elem.is_underlined st.node_stack)).2) ∧
    (is_heading (regular_font_size elements) elem next = false →
      (processElem root (regular_font_size elements) st elem next).node_stack =
        st.node_stack) := by
  have h1 : ¬ (elem.is_bold = true ∧ (!st.first_bold_skipped) = true) := by
    rintro ⟨-, hc⟩
    rw [hs] at hc
    exact absurd hc (by decide)
  have h2 : ¬ (isStandaloneNumber elem.text = true) := by
    rw [hn]
    decide
  refine ⟨?_, ?_, ?_, ?_, ?_⟩
  · cases next with
    | none => simp [is_heading, next_starts_with_colon]
    | some n => simp [is_heading, next_starts_with_colon, or_assoc]
  · intro e he
    unfold regular_font_size
    rw [he]
  · intro hall
    unfold regular_font_size
    rw [List.find?_eq_none.mpr ?_]
    intro x hx
    simp [hall x hx]
  · intro hh
    unfold processElem
    rw [if_neg h1, if_neg h2, if_pos hb, if_pos hh]
  · intro hh
    unfold processElem
    rw [if_neg h1, if_neg h2, if_pos hb, if_neg (by rw [hh]; decide)]

/-- C3 witness: "Section A:" (bold, fs 12 > regular 10) qualifies as a
heading on the tie-break scenario. -/
theorem heading_qualification_witness :
    is_heading (regular_font_size tieBreakElems)
      ⟨"Section A:", "F-Bold", 12, true, true, 1⟩ none = true := by
  have h := heading_qualification tieBreakElems "doc"
    { initialState "doc" with first_bold_skipped := true }
    ⟨"Section A:", "F-Bold", 12, true, true, 1⟩ none rfl rfl (by decide)
  exact h.1.mpr (Or.inl (by decide))

end PdfTo

namespace PdfTo

/-- C6: the per-line underline classification succeeds iff some filled
drawing contains an "re" item whose rectangle is shorter than 5 units,
overlaps the line's union bounding box horizontally by a positive amount,
and has its top edge within 5 units of the line's bottom edge; the scan
stops at the first such rectangle. -/
theorem underline_detection (drawings : List Drawing) (bb : Rect) :
    check_underlined bb (underline_rects drawings) = true ↔
    ∃ d ∈ drawings, d.dtype = "f" ∧ ∃ it ∈ d.items, it.kind = "re" ∧
      it.rect.height < 5 ∧
      min bb.x1 it.rect.x1 - max bb.x0 it.rect.x0 > 0 ∧
      |it.rect.y0 - bb.y1| < 5 := by
  have hmem : ∀ r : Rect, r ∈ underline_rects drawings ↔
      ∃ d ∈ drawings, d.dtype = "f" ∧ ∃ it ∈ d.items, it.kind = "re" ∧
        it.rect.height < 5 ∧ it.rect = r := by
    intro r
    unfold underline_rects
    constructor
    · intro hr
      obtain ⟨l, hl, hrl⟩ := List.mem_flatten.mp hr
      obtain ⟨d, hd, hld⟩ := List.mem_map.mp hl
      rw [← hld] at hrl
      obtain ⟨it, hit, hitr⟩ := List.mem_map.mp hrl
      have hdf := (List.mem_filter.mp hd).2
      have hdmem := (List.mem_filter.mp hd).1
      have hitm := (List.mem_filter.mp hit).1
      have hitp := (List.mem_filter.mp hit).2
      simp only [decide_eq_true_eq] at hdf hitp
      exact ⟨d, hdmem, hdf, it, hitm, hitp.1, hitp.2, hitr⟩
    · rintro ⟨d, hd, hdf, it, hit, hkind, hh, hrect⟩
      apply List.mem_flatten.mpr
      refine ⟨(d.items.filter (fun it => it.kind = "re" ∧ it.rect.height < 5)).map
        (fun it => it.rect), ?_, ?_⟩
      · apply List.mem_map.mpr
        refine ⟨d, ?_, rfl⟩
        rw [List.mem_filter]
        exact ⟨hd, by simp only [decide_eq_true_eq]; exact hdf⟩
      · apply List.mem_map.mpr
        refine ⟨it, ?_, hrect⟩
        rw [List.mem_filter]
        exact ⟨hit, by simp only [decide_eq_true_eq]; exact ⟨hkind, hh⟩⟩
  unfold check_underlined
  constructor
  · intro hc
    cases hfind : (underline_rects drawings).find? (fun rect =>
        min bb.x1 rect.x1 - max bb.x0 rect.x0 > 0 ∧ |rect.y0 - bb.y1| < 5) with
    | none =>
      rw [hfind] at hc
      exact absurd hc (by decide)
    | some r =>
      have hr := List.mem_of_find?_eq_some hfind
      have hpred := List.find?_some hfind
      simp only [decide_eq_true_eq] at hpred
      obtain ⟨d, hd, hdf, it, hit, hkind, hh, hrect⟩ := (hmem r).mp hr
      exact ⟨d, hd, hdf, it, hit, hkind, hh,
        by rw [hrect]; exact hpred.1, by rw [hrect]; exact hpred.2⟩
  · rintro ⟨d, hd, hdf, it, hit, hkind, hh, hov, hdist⟩
    have hrmem : it.rect ∈ underline_rects drawings :=
      (hmem it.rect).mpr ⟨d, hd, hdf, it, hit, hkind, hh, rfl⟩
    cases hfind : (underline_rects drawings).find? (fun rect =>
        min bb.x1 rect.x1 - max bb.x0 rect.x0 > 0 ∧ |rect.y0 - bb.y1| < 5) with
    | none =>
      rw [List.find?_eq_none] at hfind
      exact absurd (by simp only [decide_eq_true_eq]; exact ⟨hov, hdist⟩)
        (hfind it.rect hrmem)
    | some r =>
      rfl

/-- C7: the first bold element is unconditionally discarded — the step
only flips the skip flag, leaving graph, stack and current node
untouched — and the skip is one-time: once the flag is set it stays set,
so no later element is skipped by this rule. -/
theorem first_bold_skip (root : String) (regular : ℚ) (st : BuilderState)
    (elem : TextElement) (next : Option TextElement)
    (hb : elem.is_bold = true) (hs : st.first_bold_skipped = false) :
    processElem root regular st elem next =
      { st with first_bold_skipped := true } ∧
    ∀ (st2 : BuilderState) (e2 : TextElement) (n2 : Option TextElement),
      st2.first_bold_skipped = true →
      (processElem root regular st2 e2 n2).first_bold_skipped = true := by
  constructor
  · unfold processElem
    rw [if_pos ⟨hb, by rw [hs]; rfl⟩]
  · intro st2 e2 n2 h2
    unfold processElem
    rw [if_neg (fun hc => absurd (h2 ▸ hc.2) (by decide))]
    by_cases hsn : isStandaloneNumber e2.text = true
    · rw [if_pos hsn]
      exact h2
    · rw [if_neg hsn]
      by_cases hb2 : e2.is_bold = true
      · rw [if_pos hb2]
        by_cases hh : is_heading regular e2 n2 = true
        · rw [if_pos hh]
          exact h2
        · rw [if_neg hh]
          exact h2
      · rw [if_neg hb2]
        exact h2

/-- C7 witness: the title of the tie-break scenario is skipped whole. -/
theorem first_bold_skip_witness :
    processElem "doc" 10 (initialState "doc")
      ⟨"Title", "F-Bold", 14, true, false, 1⟩ none =
      { initialState "doc" with first_bold_skipped := true } :=
  (first_bold_skip "doc" 10 (initialState "doc")
    ⟨"Title", "F-Bold", 14, true, false, 1⟩ none rfl rfl).1

/-- C8: an element whose whole text is digits, a period and trailing
whitespace is dropped: the step leaves graph, stack and current node
unchanged. -/
theorem standalone_number_skip (root : String) (regular : ℚ)
    (st : BuilderState) (elem : TextElement) (next : Option TextElement)
    (h : isStandaloneNumber elem.text = true) :
    (processElem root regular st elem next).graph = st.graph ∧
    (processElem root regular st elem next).node_stack = st.node_stack ∧
    (processElem root regular st elem next).current_node = st.current_node := by
  unfold processElem
  by_cases h1 : elem.is_bold = true ∧ (!st.first_bold_skipped) = true
  · rw [if_pos h1]
    exact ⟨rfl, rfl, rfl⟩
  · rw [if_neg h1, if_pos h]
    exact ⟨rfl, rfl, rfl⟩

/-- C8 witness: the text "3. " matches the pattern and the step leaves
the initial graph unchanged. -/
theorem standalone_number_skip_witness :
    isStandaloneNumber "3. " = true ∧
    (processElem "doc" 10 (initialState "doc")
      ⟨"3. ", "F", 10, false, false, 1⟩ none).graph = (initialState "doc").graph :=
  ⟨by decide, (standalone_number_skip "doc" 10 (initialState "doc")
    ⟨"3. ", "F", 10, false, false, 1⟩ none (by decide)).1⟩

/-- C9: every node of the finished graph carries the stripped
accumulation of its assigned text, never the empty string — an empty
strip result is replaced by the placeholder. -/
theorem content_placeholder (elements : List TextElement) (root : String) :
    ∀ p ∈ (build_knowledge_graph elements root).nodes,
      p.2.content ≠ "" ∧
      ∃ q ∈ (processAll root (regular_font_size elements)
          (initialState root) elements).graph.nodes,
        q.1 = p.1 ∧
        p.2.content = (if pyStrip q.2.content = "" then "(No description)"
                       else pyStrip q.2.content) := by
  intro p hp
  obtain ⟨q, hq, hfq⟩ := List.mem_map.mp hp
  constructor
  · rw [← hfq]
    show (if pyStrip q.2.content = "" then "(No description)"
          else pyStrip q.2.content) ≠ ""
    by_cases hc : pyStrip q.2.content = ""
    · rw [if_pos hc]
      decide
    · rw [if_neg hc]
      exact hc
  · refine ⟨q, hq, ?_, ?_⟩
    · rw [← hfq]
    · rw [← hfq]

/-- C9 witness: the root of the tie-break scenario accumulated nothing
and ends with the placeholder, which is not empty. -/
theorem content_placeholder_witness :
    (("doc", ({ level := 0, content := "(No description)", font_size := 100,
                is_underlined := false } : NodeAttrs)) : String × NodeAttrs).2.content ≠ "" :=
  (content_placeholder tieBreakElems "doc"
    ("doc", { level := 0, content := "(No description)", font_size := 100,
              is_underlined := false }) (by decide)).1

end PdfTo

namespace PdfTo

/-- C10: when a qualifying heading's text already names a node, the
insertion overwrites that node's attributes — level, font size and
underline flag take the new heading's values and the content is reset to
the empty string — and the edge from the newly selected parent is added,
so a parent different from the existing one gives the shared node one
more incoming edge. -/
theorem duplicate_heading_overwrite (root : String) (regular : ℚ)
    (st : BuilderState) (elem : TextElement) (next : Option TextElement)
    (old : NodeAttrs)
    (hb : elem.is_bold = true) (hs : st.first_bold_skipped = true)
    (hn : isStandaloneNumber elem.text = false)
    (hh : is_heading regular elem next = true)
    (hold : lookupNode st.graph elem.text = some old) :
    lookupNode (processElem root regular st elem next).graph elem.text =
      some ({ level := (parentAndStack root (select_parent st.graph root
                elem.font_size elem.is_underlined st.node_stack)).2.length,
              content := "", font_size := elem.font_size,
              is_underlined := elem.is_underlined } : NodeAttrs) ∧
    ((parentAndStack root (select_parent st.graph root elem.font_size
        elem.is_underlined st.node_stack)).1, elem.text) ∈
      (processElem root regular st elem next).graph.edges ∧
    (((parentAndStack root (select_parent st.graph root elem.font_size
        elem.is_underlined st.node_stack)).1, elem.text) ∉ st.graph.edges →
      inDegree (processElem root regular st elem next).graph elem.text =
        inDegree st.graph elem.text + 1) := by
  have h1 : ¬ (elem.is_bold = true ∧ (!st.first_bold_skipped) = true) := by
    rintro ⟨-, hc⟩
    rw [hs] at hc
    exact absurd hc (by decide)
  have h2 : ¬ (isStandaloneNumber elem.text = true) := by
    rw [hn]
    decide
  have hred : processElem root regular st elem next =
      { graph := addEdge
          (addNode st.graph elem.text
            { level := (parentAndStack root (select_parent st.graph root
                elem.font_size elem.is_underlined st.node_stack)).2.length,
              content := "", font_size := elem.font_size,
              is_underlined := elem.is_underlined })
          (parentAndStack root (select_parent st.graph root elem.font_size
            elem.is_underlined st.node_stack)).1 elem.text,
        current_node := elem.text,
        node_stack := elem.text :: (parentAndStack root (select_parent st.graph
          root elem.font_size elem.is_underlined st.node_stack)).2,
        first_bold_skipped := st.first_bold_skipped } := by
    unfold processElem
    rw [if_neg h1, if_neg h2, if_pos hb, if_pos hh]
  rw [hred]
  refine ⟨?_, ?_, ?_⟩
  · show lookupNode (addEdge (addNode _ _ _) _ _) elem.text = _
    rw [lookupNode_addEdge, lookupNode_addNode, if_pos rfl]
  · exact mem_addEdge _ _ _
  · intro hnew
    have hnew1 : ((parentAndStack root (select_parent st.graph root
        elem.font_size elem.is_underlined st.node_stack)).1, elem.text) ∉
        (addNode st.graph elem.text
          { level := (parentAndStack root (select_parent st.graph root
              elem.font_size elem.is_underlined st.node_stack)).2.length,
            content := "", font_size := elem.font_size,
            is_underlined := elem.is_underlined }).edges := by
      rw [edges_addNode]
      exact hnew
    show inDegree (addEdge (addNode _ _ _) _ _) elem.text = _
    rw [inDegree_addEdge_new _ _ _ hnew1]
    congr 1
    unfold inDegree
    rw [edges_addNode]

/-- A builder state in which the heading text "X:" already names a node
with accumulated content, reached under a different parent. -/
def dupState : BuilderState :=
  { graph := { nodes := [("doc", ⟨0, "", 100, false⟩),
                         ("A:", ⟨1, "", 12, false⟩),
                         ("X:", ⟨2, " body", 10, false⟩)],
               edges := [("doc", "A:"), ("A:", "X:")] },
    current_node := "X:",
    node_stack := ["X:", "A:", "doc"],
    first_bold_skipped := true }

/-- C10 witness: re-inserting "X:" at font size 12 from `dupState` walks
up to the root, overwrites the node and adds a second incoming edge. -/
theorem duplicate_heading_overwrite_witness :
    inDegree (processElem "doc" 8 dupState
      ⟨"X:", "F-Bold", 12, true, false, 1⟩ none).graph "X:" =
      inDegree dupState.graph "X:" + 1 := by
  have h := duplicate_heading_overwrite "doc" 8 dupState
    ⟨"X:", "F-Bold", 12, true, false, 1⟩ none ⟨2, " body", 10, false⟩
    rfl rfl (by decide) (by decide) (by decide)
  exact h.2.2 (by decide)

end PdfTo
